import Mathlib

/-!
Verification development for the ws2812-SPI repository (src/neoSPI.py).

The Python module is shallowly embedded: the byte buffer backing a
NeoPixel object is a `List Nat` of byte values, Python integers are
`Int`, and every operation that can raise a Python exception returns
`Except PyErr`.  Python sequence-slice semantics (negative offsets,
clamping, and the length check on memoryview slice assignment) are
modelled explicitly, since several behaviours of the source depend on
them.
-/

namespace NeoSPI

/-- Kinds of Python exception the embedded operations can raise. -/
inductive PyErr
  | indexError
  | valueError
  | notImplementedError
  | zeroDivisionError
  deriving DecidableEq, Repr

instance {ε α : Type} [DecidableEq ε] [DecidableEq α] : DecidableEq (Except ε α) :=
  fun a b =>
    match a, b with
    | .ok x, .ok y =>
      match decEq x y with
      | .isTrue h => .isTrue (by rw [h])
      | .isFalse h => .isFalse (by intro hc; cases hc; exact h rfl)
    | .ok _, .error _ => .isFalse (by intro hc; cases hc)
    | .error _, .ok _ => .isFalse (by intro hc; cases hc)
    | .error x, .error y =>
      match decEq x y with
      | .isTrue h => .isTrue (by rw [h])
      | .isFalse h => .isFalse (by intro hc; cases hc; exact h rfl)

/-- `_expanded_bits = [0x88, 0x8C, 0xC8, 0xCC]` from neoSPI.py. -/
def expandedBits : List Nat := [0x88, 0x8C, 0xC8, 0xCC]

/-- `_expand_byte(b, mv)` from neoSPI.py: the four bytes written into the
four-byte memoryview.  Python `b >> k` on an int is floor division by
`2 ^ k` (`Int.fdiv`) and `& 0x3` on a possibly negative int is `emod 4`. -/
def expand_byte (b : Int) : List Nat :=
  [expandedBits.getD ((b.fdiv 64 % 4).toNat) 0,
   expandedBits.getD ((b.fdiv 16 % 4).toNat) 0,
   expandedBits.getD ((b.fdiv 4 % 4).toNat) 0,
   expandedBits.getD ((b % 4).toNat) 0]

/-- `_compress_byte(mv)` from neoSPI.py.  The unpacking
`b1, b2, b3, b4 = mv` raises ValueError unless `mv` has exactly four
bytes. -/
def compress_byte (mv : List Nat) : Except PyErr Nat :=
  match mv with
  | [b1, b2, b3, b4] =>
    .ok (((b1 &&& 0x40) <<< 1) ||| ((b1 &&& 0x04) <<< 4) |||
         ((b2 &&& 0x40) >>> 1) ||| ((b2 &&& 0x04) <<< 2) |||
         ((b3 &&& 0x40) >>> 3) ||| ((b3 &&& 0x04)) |||
         ((b4 &&& 0x40) >>> 5) ||| ((b4 &&& 0x04) >>> 2))
  | _ => .error .valueError

/-- Resolve one bound of a Python sequence slice on a sequence of length
`len`: a negative bound is offset by `len` and then clamped below by 0;
a non-negative bound is clamped above by `len`. -/
def sliceIdx (len : Nat) (i : Int) : Nat :=
  if i < 0 then ((len : Int) + i).toNat else min i.toNat len

/-- Python `l[a:b]` (step 1) on a sequence of byte values. -/
def pySlice (l : List Nat) (a b : Int) : List Nat :=
  (l.take (sliceIdx l.length b)).drop (sliceIdx l.length a)

/-- Python `mv[a:b] = src` on a memoryview: the resolved slice must have
exactly the length of `src`, else ValueError; on success the bytes of the
slice are replaced by `src`. -/
def setSliceMv (l : List Nat) (a b : Int) (src : List Nat) : Except PyErr (List Nat) :=
  let s := sliceIdx l.length a
  let e := sliceIdx l.length b
  if src.length = e - s then
    .ok (l.take s ++ src ++ l.drop (max s e))
  else
    .error .valueError

/-- `_expand_byte(v, l[a:b])` from neoSPI.py: the four assignments
`mv[0] .. mv[3]` write the expansion of `v` into the resolved slice; if
the slice holds fewer than four bytes the assignment raises IndexError. -/
def expand_byte_into (l : List Nat) (a b : Int) (v : Int) : Except PyErr (List Nat) :=
  let s := sliceIdx l.length a
  let e := sliceIdx l.length b
  if s + 4 ≤ e then
    .ok (l.take s ++ expand_byte v ++ l.drop (s + 4))
  else
    .error .indexError

/-- One normalized slice bound as computed by `_unpack_slice`: `none`
becomes `default`, a negative value is offset by the pixel count
(without any further bounds check). -/
def norm_bound (n : Nat) (default : Int) (v? : Option Int) : Int :=
  match v? with
  | none => default
  | some v => if v < 0 then v + n else v

/-- `_unpack_slice(self, s)` from neoSPI.py: rejects any explicit step
other than 1, then normalizes start (default 0) and stop (default
`pixel_count`). -/
def unpack_slice (n : Nat) (start? stop? step? : Option Int) :
    Except PyErr (Int × Int) :=
  match step? with
  | some st =>
    if st ≠ 1 then .error .notImplementedError
    else .ok (norm_bound n 0 start?, norm_bound n n stop?)
  | none => .ok (norm_bound n 0 start?, norm_bound n n stop?)

/-- The state of a `NeoPixel` object: the pixel count `_n` and the
expanded byte buffer `_data` (the SPI device is external and irrelevant
to the buffer semantics). -/
structure NeoPixel where
  n : Nat
  data : List Nat
  deriving DecidableEq, Repr

/-- Python `range(i, len, 12)`: the indices visited by the loops of
neoSPI.py that walk a buffer twelve bytes at a time, as a closed form
(the k-th visited index is `i + 12 * k`, and `ceil((len - i) / 12)`
indices are visited). -/
def rangeStep (i len : Nat) : List Nat :=
  (List.range ((len - i + 11) / 12)).map (fun k => i + 12 * k)

/-- The slice branch of `__getitem__`: the list comprehension
`[(c(dd[i:i+4]), c(dd[i+4:i+8]), c(dd[i+8:i+12])) for i in range(0, len(dd), 12)]`. -/
def compress_triples (dd : List Nat) : Except PyErr (List (Nat × Nat × Nat)) :=
  (rangeStep 0 dd.length).mapM (fun (i : Nat) => do
    let c0 ← compress_byte (pySlice dd (i : Int) ((i : Int) + 4))
    let c1 ← compress_byte (pySlice dd ((i : Int) + 4) ((i : Int) + 8))
    let c2 ← compress_byte (pySlice dd ((i : Int) + 8) ((i : Int) + 12))
    return (c0, c1, c2))

/-- `__getitem__` with an `int` index. -/
def getInt (np : NeoPixel) (index : Int) : Except PyErr (Nat × Nat × Nat) :=
  if index < -(np.n : Int) ∨ (np.n : Int) ≤ index then
    .error .indexError
  else
    let i := index * 12
    do
      let c0 ← compress_byte (pySlice np.data i (i + 4))
      let c1 ← compress_byte (pySlice np.data (i + 4) (i + 8))
      let c2 ← compress_byte (pySlice np.data (i + 8) (i + 12))
      return (c0, c1, c2)

/-- `__getitem__` with a `(pixel, channel)` pair of ints. -/
def getPair (np : NeoPixel) (ind1 ind2 : Int) : Except PyErr Nat :=
  if ind1 < -(np.n : Int) ∨ (np.n : Int) ≤ ind1 ∨ ind2 < 0 ∨ (3 : Int) ≤ ind2 then
    .error .indexError
  else
    let j := ind1 * 12 + ind2 * 4
    compress_byte (pySlice np.data j (j + 4))

/-- `__getitem__` with a slice. -/
def getSlice (np : NeoPixel) (start? stop? step? : Option Int) :
    Except PyErr (List (Nat × Nat × Nat)) := do
  let (start, stop) ← unpack_slice np.n start? stop? step?
  compress_triples (pySlice np.data (start * 12) (stop * 12))

/-- `__setitem__` with an `int` index and a 3-tuple value. -/
def setInt (np : NeoPixel) (index : Int) (value : Int × Int × Int) :
    Except PyErr NeoPixel :=
  if index < -(np.n : Int) ∨ (np.n : Int) ≤ index then
    .error .indexError
  else
    let i := index * 12
    do
      let d0 ← expand_byte_into np.data i (i + 4) value.1
      let d1 ← expand_byte_into d0 (i + 4) (i + 8) value.2.1
      let d2 ← expand_byte_into d1 (i + 8) (i + 12) value.2.2
      return { np with data := d2 }

/-- `__setitem__` with a `(pixel, channel)` pair and an integer value. -/
def setPair (np : NeoPixel) (ind1 ind2 : Int) (value : Int) :
    Except PyErr NeoPixel :=
  if ind1 < -(np.n : Int) ∨ (np.n : Int) ≤ ind1 ∨ ind2 < 0 ∨ (3 : Int) ≤ ind2 then
    .error .indexError
  else if value < 0 ∨ 255 < value then
    .error .valueError
  else
    let j := ind1 * 12 + ind2 * 4
    (expand_byte_into np.data j (j + 4) value).map
      (fun d => { np with data := d })

/-- The value assigned to a slice: either a single 3-tuple (broadcast)
or a list of 3-tuples. -/
inductive SliceVal
  | tup (v : Int × Int × Int)
  | lst (l : List (Int × Int × Int))

/-- The broadcast loop `for i in range(12, len(dd), 12): dd[i:i+12] = dd[0:12]`
of the slice branch of `__setitem__`. -/
def tile_copy (dd : List Nat) : Except PyErr (List Nat) :=
  (rangeStep 12 dd.length).foldlM
    (fun acc (i : Nat) =>
      setSliceMv acc (i : Int) ((i : Int) + 12) (pySlice acc 0 12)) dd

/-- The per-pixel loop of the list branch of the slice `__setitem__`:
`for i in range(0, len(dd), 12): v0, v1, v2 = value[i // 3]; ...`
(note the source reads `value[i // 3]`, `i` being a byte offset). -/
def list_assign (dd : List Nat) (value : List (Int × Int × Int)) :
    Except PyErr (List Nat) :=
  (rangeStep 0 dd.length).foldlM
    (fun acc (i : Nat) =>
      match value[i / 3]? with
      | none => .error .indexError
      | some (v0, v1, v2) => do
        let a0 ← expand_byte_into acc (i : Int) ((i : Int) + 4) v0
        let a1 ← expand_byte_into a0 ((i : Int) + 4) ((i : Int) + 8) v1
        expand_byte_into a1 ((i : Int) + 8) ((i : Int) + 12) v2)
    dd

/-- `__setitem__` with a slice index.  `dd` is the memoryview
`memoryview(data)[start*12:stop*12]`; all writes land inside it, so the
net effect is obtained by splicing the rewritten `dd` back between the
untouched prefix and suffix of the buffer. -/
def setSlice (np : NeoPixel) (start? stop? step? : Option Int)
    (value : SliceVal) : Except PyErr NeoPixel := do
  let (start, stop) ← unpack_slice np.n start? stop? step?
  let s := sliceIdx np.data.length (start * 12)
  let e := sliceIdx np.data.length (stop * 12)
  let dd := (np.data.take e).drop s
  if dd.length = 0 then
    return np
  else
    match value with
    | .tup (v0, v1, v2) => do
      let d0 ← expand_byte_into dd 0 4 v0
      let d1 ← expand_byte_into d0 4 8 v1
      let d2 ← expand_byte_into d1 8 12 v2
      let d3 ← tile_copy d2
      return { np with data := np.data.take s ++ d3 ++ np.data.drop e }
    | .lst l => do
      let d ← list_assign dd l
      return { np with data := np.data.take s ++ d ++ np.data.drop e }

/-- `rotate(self, count)` from neoSPI.py.  `count % self._n` is Python
modulo (`Int.emod`, non-negative for positive `n`); the two memoryview
slice assignments carry Python's length check. -/
def rotate (np : NeoPixel) (count : Int) : Except PyErr NeoPixel :=
  if np.n = 0 then .error .zeroDivisionError
  else
    let c : Int := (count % (np.n : Int)) * 12
    let tail := pySlice np.data (-c) (np.data.length : Int)
    let head := pySlice np.data 0 (-c)
    do
      let d0 ← setSliceMv np.data c (np.data.length : Int) head
      let d1 ← setSliceMv d0 0 c tail
      return { np with data := d1 }

/-! ### Derived notions used by the proofs -/

/-- Replacing the `m.length` bytes of `l` at offset `o` by `m` — the net
effect of every in-place write the module performs. -/
def splice (l : List Nat) (o : Nat) (m : List Nat) : List Nat :=
  l.take o ++ m ++ l.drop (o + m.length)

/-- `k` adjacent copies of the byte block `t`. -/
def tiles : Nat → List Nat → List Nat
  | 0, _ => []
  | k + 1, t => t ++ tiles k t

/-- A NeoPixel state holding n pixels all equal to (0, 0, 0): every
4-byte group is the expansion of 0, i.e. the byte 0x88 = 136 (this is
the state produced by the constructor, which zero-fills and then
broadcasts (0,0,0)). -/
def zeroBuf (n : Nat) : NeoPixel := ⟨n, List.replicate (n * 12) 136⟩

/-- A 2-pixel buffer holding pixels (1,2,3) and (4,5,6). -/
def pixData : List Nat :=
  expand_byte 1 ++ expand_byte 2 ++ expand_byte 3 ++
  expand_byte 4 ++ expand_byte 5 ++ expand_byte 6

/-! ### Byte codec lemmas -/

lemma expand_byte_length (v : Int) : (expand_byte v).length = 4 := rfl

set_option maxRecDepth 4000 in
lemma compress_expand_nat : ∀ v : Nat, v < 256 →
    compress_byte (expand_byte (v : Int)) = .ok v := by decide

lemma expand_byte_emod (x : Int) : expand_byte x = expand_byte (x % 256) := by
  have e1 : x.fdiv 64 % 4 = (x % 256).fdiv 64 % 4 := by
    rw [Int.fdiv_eq_ediv x (by norm_num), Int.fdiv_eq_ediv _ (by norm_num)]
    have h : x / 64 = 4 * (x / 256) + (x % 256) / 64 := by omega
    omega
  have e2 : x.fdiv 16 % 4 = (x % 256).fdiv 16 % 4 := by
    rw [Int.fdiv_eq_ediv x (by norm_num), Int.fdiv_eq_ediv _ (by norm_num)]
    have h : x / 16 = 16 * (x / 256) + (x % 256) / 16 := by omega
    omega
  have e3 : x.fdiv 4 % 4 = (x % 256).fdiv 4 % 4 := by
    rw [Int.fdiv_eq_ediv x (by norm_num), Int.fdiv_eq_ediv _ (by norm_num)]
    have h : x / 4 = 64 * (x / 256) + (x % 256) / 4 := by omega
    omega
  have e4 : x % 4 = (x % 256) % 4 := by omega
  unfold expand_byte
  rw [e1, e2, e3, e4]

lemma compress_expand (x : Int) :
    compress_byte (expand_byte x) = .ok (x % 256).toNat := by
  rw [expand_byte_emod]
  have h0 : 0 ≤ x % 256 := Int.emod_nonneg x (by norm_num)
  have h1 : x % 256 < 256 := Int.emod_lt_of_pos x (by norm_num)
  have h2 : ((x % 256).toNat : Int) = x % 256 := Int.toNat_of_nonneg h0
  have h3 : (x % 256).toNat < 256 := by omega
  have h4 := compress_expand_nat (x % 256).toNat h3
  rw [h2] at h4
  exact h4

/-! ### Slice and splice toolkit -/

lemma sliceIdx_coe (L a : Nat) : sliceIdx L (a : Int) = min a L := by
  simp [sliceIdx]

lemma pySlice_eq (l : List Nat) (a b : Int) (an bn : Nat)
    (ha : a = (an : Int)) (hb : b = (bn : Int)) :
    pySlice l a b = (l.take bn).drop an := by
  subst ha hb
  unfold pySlice
  rw [sliceIdx_coe, sliceIdx_coe]
  have ht : l.take (min bn l.length) = l.take bn := by
    rcases le_or_lt bn l.length with h | h
    · rw [Nat.min_eq_left h]
    · rw [Nat.min_eq_right (le_of_lt h), List.take_length,
        List.take_of_length_le (le_of_lt h)]
  rw [ht]
  rcases le_or_lt an l.length with h | h
  · rw [Nat.min_eq_left h]
  · rw [Nat.min_eq_right (le_of_lt h),
      List.drop_eq_nil_of_le (by simp only [List.length_take]; omega),
      List.drop_eq_nil_of_le (by simp only [List.length_take]; omega)]

lemma length_take_of_le {l : List Nat} {o : Nat} (h : o ≤ l.length) :
    (l.take o).length = o := by
  simp [List.length_take]; omega

lemma splice_length {l m : List Nat} {o : Nat} (h : o + m.length ≤ l.length) :
    (splice l o m).length = l.length := by
  simp [splice, List.length_take, List.length_drop]; omega

lemma splice_getElem? (l m : List Nat) (o : Nat) (h : o + m.length ≤ l.length)
    (j : Nat) :
    (splice l o m)[j]? =
      if j < o then l[j]?
      else if j < o + m.length then m[j - o]? else l[j]? := by
  unfold splice
  have hA : (l.take o).length = o := length_take_of_le (by omega)
  have hX : (l.take o ++ m).length = o + m.length := by
    simp only [List.length_append, hA]
  by_cases h1 : j < o
  · rw [List.getElem?_append_left (by rw [hX]; omega),
      List.getElem?_append_left (by rw [hA]; exact h1), List.getElem?_take,
      if_pos h1, if_pos h1]
  · rw [if_neg h1]
    by_cases h2 : j < o + m.length
    · rw [List.getElem?_append_left (by rw [hX]; exact h2),
        List.getElem?_append_right (by rw [hA]; omega), hA, if_pos h2]
    · rw [List.getElem?_append_right (by rw [hX]; omega), hX,
        List.getElem?_drop, if_neg h2]
      congr 1
      omega

lemma take_drop_splice_middle (l m : List Nat) (o : Nat)
    (h : o + m.length ≤ l.length) :
    ((splice l o m).take (o + m.length)).drop o = m := by
  apply List.ext_getElem?
  intro j
  rw [List.getElem?_drop, List.getElem?_take, splice_getElem? l m o h]
  by_cases hj : j < m.length
  · rw [if_pos (by omega), if_neg (by omega), if_pos (by omega)]
    congr 1
    omega
  · rw [if_neg (by omega)]
    exact (List.getElem?_eq_none (by omega)).symm

lemma take_drop_splice_frame (l m : List Nat) (o a b : Nat)
    (h : o + m.length ≤ l.length) (hdisj : b ≤ o ∨ o + m.length ≤ a) :
    ((splice l o m).take b).drop a = ((l.take b).drop a) := by
  apply List.ext_getElem?
  intro j
  rw [List.getElem?_drop, List.getElem?_take, List.getElem?_drop,
    List.getElem?_take, splice_getElem? l m o h]
  by_cases hj : a + j < b
  · rw [if_pos hj, if_pos hj]
    rcases hdisj with hd | hd
    · rw [if_pos (by omega)]
    · rw [if_neg (by omega), if_neg (by omega)]
  · rw [if_neg hj, if_neg hj]

lemma splice_take_boundary (l m : List Nat) (o : Nat)
    (h : o + m.length ≤ l.length) :
    (splice l o m).take (o + m.length) = l.take o ++ m := by
  unfold splice
  rw [show o + m.length = (l.take o ++ m).length by
      simp only [List.length_append, List.length_take]; omega,
    List.take_left]

lemma splice_drop_beyond (l m : List Nat) (o t : Nat)
    (h : o + m.length ≤ l.length) :
    (splice l o m).drop (o + m.length + t) = l.drop (o + m.length + t) := by
  unfold splice
  rw [show o + m.length + t = (l.take o ++ m).length + t by
      simp only [List.length_append, List.length_take]; omega,
    List.drop_append, List.drop_drop]
  congr 1
  simp only [List.length_append, List.length_take]
  omega

lemma splice_splice_adjacent (l m1 m2 : List Nat) (o : Nat)
    (h : o + m1.length + m2.length ≤ l.length) :
    splice (splice l o m1) (o + m1.length) m2 = splice l o (m1 ++ m2) := by
  have h1 : o + m1.length ≤ l.length := by omega
  show (splice l o m1).take (o + m1.length) ++ m2 ++
      (splice l o m1).drop (o + m1.length + m2.length) =
    l.take o ++ (m1 ++ m2) ++ l.drop (o + (m1 ++ m2).length)
  rw [splice_take_boundary l m1 o h1, splice_drop_beyond l m1 o m2.length h1]
  simp [List.append_assoc, Nat.add_assoc]

lemma expand_byte_into_eq (l : List Nat) (a b v : Int) (o : Nat)
    (ha : a = (o : Int)) (hb : b = (o : Int) + 4) (h : o + 4 ≤ l.length) :
    expand_byte_into l a b v = .ok (splice l o (expand_byte v)) := by
  subst ha hb
  unfold expand_byte_into
  have hb4 : ((o : Int) + 4) = ((o + 4 : Nat) : Int) := by push_cast; ring
  rw [hb4, sliceIdx_coe, sliceIdx_coe, Nat.min_eq_left (by omega),
    Nat.min_eq_left h, if_pos (by omega)]
  rfl

lemma setSliceMv_eq (l src : List Nat) (a b : Int) (o : Nat)
    (ha : a = (o : Int)) (hb : b = ((o + src.length : Nat) : Int))
    (h : o + src.length ≤ l.length) :
    setSliceMv l a b src = .ok (splice l o src) := by
  subst ha hb
  unfold setSliceMv
  rw [sliceIdx_coe, sliceIdx_coe, Nat.min_eq_left (by omega),
    Nat.min_eq_left h, if_pos (by omega)]
  unfold splice
  rw [Nat.max_eq_right (by omega)]

lemma tiles_length (k : Nat) (t : List Nat) :
    (tiles k t).length = k * t.length := by
  induction k with
  | zero => simp [tiles]
  | succ k ih => simp [tiles, ih]; ring

lemma tiles_succ_append (k : Nat) (t : List Nat) :
    tiles (k + 1) t = tiles k t ++ t := by
  induction k with
  | zero => simp [tiles]
  | succ k ih =>
    show t ++ tiles (k + 1) t = (t ++ tiles k t) ++ t
    rw [ih, List.append_assoc]

lemma rangeStep_unfold (i len : Nat) :
    rangeStep i len = if i < len then i :: rangeStep (i + 12) len else [] := by
  by_cases h : i < len
  · rw [if_pos h]
    unfold rangeStep
    have hc : (len - i + 11) / 12 = (len - (i + 12) + 11) / 12 + 1 := by omega
    rw [hc, List.range_succ_eq_map, List.map_cons, List.map_map]
    refine congrArg₂ _ (by omega) ?_
    apply List.map_congr_left
    intro k _
    simp [Function.comp]
    omega
  · rw [if_neg h]
    unfold rangeStep
    have hc : (len - i + 11) / 12 = 0 := by omega
    rw [hc]
    rfl

lemma rangeStep_shift12 (L : Nat) :
    rangeStep 12 L = (rangeStep 0 (L - 12)).map (fun i => i + 12) := by
  unfold rangeStep
  rw [List.map_map, show (L - 12 + 11) / 12 = (L - 12 - 0 + 11) / 12 by omega]
  apply List.map_congr_left
  intro k _
  simp [Function.comp]
  omega

lemma exc_mapM_map {α β γ : Type} (g : α → β) (f : β → Except PyErr γ)
    (l : List α) :
    (l.map g).mapM f = l.mapM (fun a => f (g a)) := by
  induction l with
  | nil => rfl
  | cons a l ih =>
    rw [List.map_cons, List.mapM_cons, List.mapM_cons, ih]

lemma exc_mapM_congr {α β : Type} {f g : α → Except PyErr β} (l : List α)
    (h : ∀ a ∈ l, f a = g a) : l.mapM f = l.mapM g := by
  induction l with
  | nil => rfl
  | cons a l ih =>
    rw [List.mapM_cons, List.mapM_cons, h a (by simp),
      ih (fun x hx => h x (by simp [hx]))]

/-! ### Structure lemmas for compress_triples -/

lemma pySlice_cast4 (dd : List Nat) (i : Nat) :
    pySlice dd (i : Int) ((i : Int) + 4) = (dd.drop i).take 4 := by
  rw [pySlice_eq dd _ _ i (i + 4) rfl (by push_cast; ring), List.drop_take]
  congr 1
  omega

lemma pySlice_cast48 (dd : List Nat) (i : Nat) :
    pySlice dd ((i : Int) + 4) ((i : Int) + 8) = (dd.drop (i + 4)).take 4 := by
  rw [pySlice_eq dd _ _ (i + 4) (i + 8) (by push_cast; ring) (by push_cast; ring),
    List.drop_take]
  congr 1
  omega

lemma pySlice_cast812 (dd : List Nat) (i : Nat) :
    pySlice dd ((i : Int) + 8) ((i : Int) + 12) = (dd.drop (i + 8)).take 4 := by
  rw [pySlice_eq dd _ _ (i + 8) (i + 12) (by push_cast; ring) (by push_cast; ring),
    List.drop_take]
  congr 1
  omega

lemma take4_of_len4 (m X : List Nat) (hm : m.length = 4) : (m ++ X).take 4 = m := by
  rw [← hm, List.take_left]

lemma drop4_of_len4 (m X : List Nat) (hm : m.length = 4) : (m ++ X).drop 4 = X := by
  rw [← hm, List.drop_left]

lemma compress_triples_block (dd : List Nat) (h12 : 12 ≤ dd.length) :
    compress_triples dd =
      (do
        let c0 ← compress_byte (dd.take 4)
        let c1 ← compress_byte ((dd.drop 4).take 4)
        let c2 ← compress_byte ((dd.drop 8).take 4)
        let rest ← compress_triples (dd.drop 12)
        pure ((c0, c1, c2) :: rest)) := by
  conv_lhs => unfold compress_triples
  conv_rhs => unfold compress_triples
  simp only [pySlice_cast4, pySlice_cast48, pySlice_cast812]
  rw [rangeStep_unfold, if_pos (show 0 < dd.length by omega), rangeStep_shift12,
    List.mapM_cons, exc_mapM_map, List.length_drop]
  rw [exc_mapM_congr (rangeStep 0 (dd.length - 12))
    (f := fun i =>
      (do
        let c0 ← compress_byte ((dd.drop (i + 12)).take 4)
        let c1 ← compress_byte ((dd.drop (i + 12 + 4)).take 4)
        let c2 ← compress_byte ((dd.drop (i + 12 + 8)).take 4)
        pure (c0, c1, c2)))
    (g := fun i =>
      (do
        let c0 ← compress_byte (((dd.drop 12).drop i).take 4)
        let c1 ← compress_byte (((dd.drop 12).drop (i + 4)).take 4)
        let c2 ← compress_byte (((dd.drop 12).drop (i + 8)).take 4)
        pure (c0, c1, c2)))
    (by
      intro a _
      simp only [List.drop_drop]
      rw [show 12 + a = a + 12 by omega, show 12 + (a + 4) = a + 12 + 4 by omega,
        show 12 + (a + 8) = a + 12 + 8 by omega])]
  simp only [List.drop_zero, bind_assoc, pure_bind]

lemma compress_byte_ok_len4 (l : List Nat) (h : l.length = 4) :
    ∃ x, compress_byte l = .ok x := by
  rcases l with _ | ⟨a, _ | ⟨b, _ | ⟨c, _ | ⟨d, _ | ⟨e, tl⟩⟩⟩⟩⟩ <;>
    simp_all [compress_byte]

lemma compress_triples_total :
    ∀ (m : Nat) (dd : List Nat), dd.length = 12 * m →
      ∃ l, compress_triples dd = .ok l ∧ l.length = m := by
  intro m
  induction m with
  | zero =>
    intro dd h
    have hn : dd = [] := List.eq_nil_of_length_eq_zero (by omega)
    subst hn
    exact ⟨[], rfl, rfl⟩
  | succ k ih =>
    intro dd h
    obtain ⟨c0, hc0⟩ := compress_byte_ok_len4 (dd.take 4)
      (by simp only [List.length_take]; omega)
    obtain ⟨c1, hc1⟩ := compress_byte_ok_len4 ((dd.drop 4).take 4)
      (by simp only [List.length_take, List.length_drop]; omega)
    obtain ⟨c2, hc2⟩ := compress_byte_ok_len4 ((dd.drop 8).take 4)
      (by simp only [List.length_take, List.length_drop]; omega)
    obtain ⟨rest, hrest, hlen⟩ := ih (dd.drop 12)
      (by simp only [List.length_drop]; omega)
    have hdd : compress_triples dd = .ok ((c0, c1, c2) :: rest) := by
      rw [compress_triples_block dd (by omega), hc0, hc1, hc2, hrest]
      rfl
    exact ⟨(c0, c1, c2) :: rest, hdd, by simp [hlen]⟩

lemma compress_triples_tile (v0 v1 v2 : Int) (k : Nat) :
    compress_triples
        (tiles k (expand_byte v0 ++ expand_byte v1 ++ expand_byte v2)) =
      .ok (List.replicate k
        ((v0 % 256).toNat, (v1 % 256).toNat, (v2 % 256).toNat)) := by
  induction k with
  | zero =>
    show compress_triples [] = _
    rfl
  | succ k ih =>
    have hsh : tiles (k + 1) (expand_byte v0 ++ expand_byte v1 ++ expand_byte v2) =
        expand_byte v0 ++ (expand_byte v1 ++ (expand_byte v2 ++
          tiles k (expand_byte v0 ++ expand_byte v1 ++ expand_byte v2))) := by
      show (expand_byte v0 ++ expand_byte v1 ++ expand_byte v2) ++ _ = _
      simp [List.append_assoc]
    rw [hsh]
    set r := tiles k (expand_byte v0 ++ expand_byte v1 ++ expand_byte v2) with hr
    set dd := expand_byte v0 ++ (expand_byte v1 ++ (expand_byte v2 ++ r)) with hdd
    have hlen : dd.length = 12 + r.length := by
      simp [hdd, expand_byte_length]
      omega
    have h0 : dd.take 4 = expand_byte v0 :=
      take4_of_len4 _ _ (expand_byte_length v0)
    have hd4 : dd.drop 4 = expand_byte v1 ++ (expand_byte v2 ++ r) :=
      drop4_of_len4 _ _ (expand_byte_length v0)
    have h1 : (dd.drop 4).take 4 = expand_byte v1 := by
      rw [hd4]
      exact take4_of_len4 _ _ (expand_byte_length v1)
    have hd8 : dd.drop 8 = expand_byte v2 ++ r := by
      rw [show (8 : Nat) = 4 + 4 from rfl, ← List.drop_drop, hd4]
      exact drop4_of_len4 _ _ (expand_byte_length v1)
    have h2 : (dd.drop 8).take 4 = expand_byte v2 := by
      rw [hd8]
      exact take4_of_len4 _ _ (expand_byte_length v2)
    have hd12 : dd.drop 12 = r := by
      rw [show (12 : Nat) = 8 + 4 from rfl, ← List.drop_drop, hd8]
      exact drop4_of_len4 _ _ (expand_byte_length v2)
    rw [compress_triples_block dd (by omega), h0, h1, h2, hd12,
      compress_expand, compress_expand, compress_expand, ih]
    rfl

/-! ### Write-side machinery -/

lemma exc_ok_bind {α β : Type} (a : α) (f : α → Except PyErr β) :
    (Except.ok a : Except PyErr α) >>= f = f a := rfl

lemma write3_chain {β : Type} (l : List Nat) (o : Nat) (x0 x1 x2 x3 : Int)
    (h0 : x0 = (o : Int)) (h1 : x1 = (o : Int) + 4) (h2 : x2 = (o : Int) + 8)
    (h3 : x3 = (o : Int) + 12) (h : o + 12 ≤ l.length) (v0 v1 v2 : Int)
    (k : List Nat → Except PyErr β) :
    (expand_byte_into l x0 x1 v0 >>= fun d0 =>
      expand_byte_into d0 x1 x2 v1 >>= fun d1 =>
        expand_byte_into d1 x2 x3 v2 >>= k) =
    k (splice l o (expand_byte v0 ++ expand_byte v1 ++ expand_byte v2)) := by
  subst h0 h1 h2 h3
  have len1 : (splice l o (expand_byte v0)).length = l.length :=
    splice_length (by simp only [expand_byte_length]; omega)
  have len2 : (splice (splice l o (expand_byte v0)) (o + 4)
      (expand_byte v1)).length = l.length := by
    rw [splice_length (by rw [len1]; simp only [expand_byte_length]; omega), len1]
  rw [expand_byte_into_eq l _ _ v0 o rfl rfl (by omega), exc_ok_bind]
  rw [expand_byte_into_eq (splice l o (expand_byte v0)) _ _ v1 (o + 4)
    (by push_cast; ring) (by push_cast; ring) (by rw [len1]; omega),
    exc_ok_bind]
  rw [expand_byte_into_eq (splice (splice l o (expand_byte v0)) (o + 4)
      (expand_byte v1)) _ _ v2 (o + 8)
    (by push_cast; ring) (by push_cast; ring) (by rw [len2]; omega),
    exc_ok_bind]
  have a1 := splice_splice_adjacent l (expand_byte v0) (expand_byte v1) o
    (by simp only [expand_byte_length]; omega)
  simp only [expand_byte_length] at a1
  have a2 := splice_splice_adjacent l (expand_byte v0 ++ expand_byte v1)
    (expand_byte v2) o
    (by simp only [List.length_append, expand_byte_length]; omega)
  simp only [List.length_append, expand_byte_length] at a2
  rw [show (4 : Nat) + 4 = 8 from rfl] at a2
  rw [a1, a2]

lemma tile_fold (t : List Nat) (ht : t.length = 12) :
    ∀ (gap j : Nat) (acc : List Nat) (L m : Nat), 1 ≤ j → L = 12 * (j + gap) →
      m = 12 * j → acc.length = L → acc.take 12 = t →
      acc.take (12 * j) = tiles j t →
      ((rangeStep m L).foldlM
        (fun acc (i : Nat) =>
          setSliceMv acc (i : Int) ((i : Int) + 12) (pySlice acc 0 12)) acc) =
      .ok (tiles (j + gap) t) := by
  intro gap
  induction gap with
  | zero =>
    intro j acc L m hj hL hm hacc ht12 htake
    rw [rangeStep_unfold, if_neg (by omega), List.foldlM_nil]
    have hacct : acc = tiles j t := by
      rw [← htake, List.take_of_length_le (by omega)]
    rw [Nat.add_zero, ← hacct]
    rfl
  | succ gap ih =>
    intro j acc L m hj hL hm hacc ht12 htake
    rw [rangeStep_unfold, if_pos (by omega), List.foldlM_cons]
    have hsrc : pySlice acc 0 12 = acc.take 12 := by
      rw [pySlice_eq acc 0 12 0 12 (by norm_num) (by norm_num), List.drop_zero]
    rw [hsrc, ht12,
      setSliceMv_eq acc t m _ (12 * j) (by rw [hm])
        (by rw [hm, ht]; push_cast; ring) (by rw [ht]; omega),
      exc_ok_bind]
    have hlen' : (splice acc (12 * j) t).length = L := by
      rw [splice_length (by rw [ht]; omega), hacc]
    have ht12' : (splice acc (12 * j) t).take 12 = t := by
      have hf := take_drop_splice_frame acc t (12 * j) 0 12 (by rw [ht]; omega)
        (Or.inl (by omega))
      simp only [List.drop_zero] at hf
      rw [hf, ht12]
    have htake' : (splice acc (12 * j) t).take (12 * (j + 1)) = tiles (j + 1) t := by
      have hb := splice_take_boundary acc t (12 * j) (by rw [ht]; omega)
      rw [ht] at hb
      rw [show 12 * (j + 1) = 12 * j + 12 by ring, hb, htake, ← tiles_succ_append]
    rw [show m + 12 = 12 * (j + 1) by omega,
      show j + (gap + 1) = j + 1 + gap from by ring]
    exact ih (j + 1) (splice acc (12 * j) t) L (12 * (j + 1)) (by omega) (by omega)
      rfl hlen' ht12' htake'

lemma tile_copy_eq (dd t : List Nat) (k : Nat) (hk : 1 ≤ k) (ht : t.length = 12)
    (hlen : dd.length = 12 * k) (htake : dd.take 12 = t) :
    tile_copy dd = .ok (tiles k t) := by
  unfold tile_copy
  have h1 : dd.take (12 * 1) = tiles 1 t := by
    rw [show 12 * 1 = 12 by norm_num, htake]
    show t = t ++ tiles 0 t
    simp [tiles]
  have := tile_fold t ht (k - 1) 1 dd dd.length 12 (le_refl 1) (by omega)
    (by norm_num) rfl htake h1
  rw [show 1 + (k - 1) = k by omega] at this
  exact this

lemma setSlice_tup_eq (n : Nat) (data : List Nat) (hd : data.length = 12 * n)
    (start stop : Nat) (h1 : start <= stop) (h2 : stop <= n) (v0 v1 v2 : Int) :
    setSlice ⟨n, data⟩ (some (start : Int)) (some (stop : Int)) none
      (.tup (v0, v1, v2)) =
    .ok ⟨n, data.take (12 * start) ++
            tiles (stop - start)
              (expand_byte v0 ++ expand_byte v1 ++ expand_byte v2) ++
            data.drop (12 * stop)⟩ := by
  unfold setSlice
  simp only [unpack_slice, norm_bound, exc_ok_bind]
  rw [if_neg (show ¬((start : Int) < 0) by omega),
    if_neg (show ¬((stop : Int) < 0) by omega),
    show ((start : Int) * 12) = ((12 * start : Nat) : Int) by push_cast; ring,
    show ((stop : Int) * 12) = ((12 * stop : Nat) : Int) by push_cast; ring,
    sliceIdx_coe, sliceIdx_coe, Nat.min_eq_left (by omega),
    Nat.min_eq_left (by omega)]
  have hddlen : ((data.take (12 * stop)).drop (12 * start)).length =
      12 * (stop - start) := by
    simp only [List.length_drop, List.length_take]
    omega
  by_cases hse : start = stop
  · rw [if_pos (by rw [hddlen]; omega)]
    subst hse
    show Except.ok _ = _
    simp [tiles, List.take_append_drop]
  · rw [if_neg (by rw [hddlen]; omega)]
    set dd := (data.take (12 * stop)).drop (12 * start) with hdd
    have ht12len : (expand_byte v0 ++ expand_byte v1 ++ expand_byte v2).length = 12 := by
      simp [expand_byte_length]
    rw [write3_chain dd 0 0 4 8 12 (by norm_num) (by norm_num) (by norm_num)
      (by norm_num) (by omega) v0 v1 v2 _]
    have hlen2 : (splice dd 0 (expand_byte v0 ++ expand_byte v1 ++ expand_byte v2)).length =
        12 * (stop - start) := by
      rw [splice_length (by omega), hddlen]
    have htk : (splice dd 0 (expand_byte v0 ++ expand_byte v1 ++ expand_byte v2)).take 12 =
        expand_byte v0 ++ expand_byte v1 ++ expand_byte v2 := by
      have hb := splice_take_boundary dd
        (expand_byte v0 ++ expand_byte v1 ++ expand_byte v2) 0 (by omega)
      rw [ht12len] at hb
      simpa using hb
    rw [tile_copy_eq _ _ (stop - start) (by omega) ht12len hlen2 htk, exc_ok_bind]
    rfl

lemma getSlice_nat_eq (n : Nat) (d : List Nat) (start stop : Nat) :
    getSlice ⟨n, d⟩ (some (start : Int)) (some (stop : Int)) none =
      compress_triples ((d.take (12 * stop)).drop (12 * start)) := by
  unfold getSlice
  simp only [unpack_slice, norm_bound, exc_ok_bind]
  rw [if_neg (show ¬((start : Int) < 0) by omega),
    if_neg (show ¬((stop : Int) < 0) by omega),
    pySlice_eq d _ _ (12 * start) (12 * stop) (by push_cast; ring)
      (by push_cast; ring)]

lemma slice_of_written (data T : List Nat) (start stop : Nat)
    (h1 : start <= stop) (h2 : 12 * stop <= data.length)
    (hT : T.length = 12 * (stop - start)) :
    (((data.take (12 * start) ++ T ++ data.drop (12 * stop)).take (12 * stop)).drop
      (12 * start)) = T := by
  have hsp : data.take (12 * start) ++ T ++ data.drop (12 * stop) =
      splice data (12 * start) T := by
    unfold splice
    rw [hT, show 12 * start + 12 * (stop - start) = 12 * stop by omega]
  rw [hsp]
  have := take_drop_splice_middle data T (12 * start) (by omega)
  rw [hT, show 12 * start + 12 * (stop - start) = 12 * stop by omega] at this
  exact this

/-- C7: for every in-bounds slice and every triple (a,b,c) with
components in 0..255, assigning the single triple to the slice makes a
subsequent get of that slice return a sequence in which every element
equals (a,b,c); if the slice is empty the assignment is a no-op that
changes no byte of the buffer. -/
theorem c7_broadcast_set_get (n : Nat) (data : List Nat) (hd : data.length = 12 * n)
    (start stop : Nat) (h1 : start <= stop) (h2 : stop <= n)
    (a b c : Nat) (ha : a <= 255) (hb : b <= 255) (hc : c <= 255) :
    ∃ np' : NeoPixel,
      setSlice ⟨n, data⟩ (some (start : Int)) (some (stop : Int)) none
        (.tup ((a : Int), (b : Int), (c : Int))) = .ok np' ∧
      getSlice np' (some (start : Int)) (some (stop : Int)) none =
        .ok (List.replicate (stop - start) (a, b, c)) ∧
      (start = stop → np' = ⟨n, data⟩) := by
  have hta : (((a : Nat) : Int) % 256).toNat = a := by
    rw [Int.emod_eq_of_lt (by positivity) (by omega)]
    simp
  have htb : (((b : Nat) : Int) % 256).toNat = b := by
    rw [Int.emod_eq_of_lt (by positivity) (by omega)]
    simp
  have htc : (((c : Nat) : Int) % 256).toNat = c := by
    rw [Int.emod_eq_of_lt (by positivity) (by omega)]
    simp
  refine ⟨_, setSlice_tup_eq n data hd start stop h1 h2 a b c, ?_, ?_⟩
  · rw [getSlice_nat_eq, slice_of_written data _ start stop h1 (by omega)
      (by rw [tiles_length]; simp [expand_byte_length]; ring),
      compress_triples_tile, hta, htb, htc]
  · intro h
    subst h
    simp [tiles, List.take_append_drop]

/-- Witness for C7 on a 2-pixel buffer, slice 0:2, triple (7,8,9). -/
theorem c7_broadcast_set_get_witness :
    (List.replicate 24 136).length = 12 * 2 ∧
    (∃ np', setSlice ⟨2, List.replicate 24 136⟩ (some ((0 : Nat) : Int))
        (some ((2 : Nat) : Int)) none
        (.tup (((7 : Nat) : Int), ((8 : Nat) : Int), ((9 : Nat) : Int))) = .ok np' ∧
      getSlice np' (some ((0 : Nat) : Int)) (some ((2 : Nat) : Int)) none =
        .ok (List.replicate (2 - 0) (7, 8, 9)) ∧
      ((0 : Nat) = 2 → np' = ⟨2, List.replicate 24 136⟩)) :=
  ⟨by decide, c7_broadcast_set_get 2 (List.replicate 24 136) (by decide) 0 2
    (by decide) (by decide) 7 8 9 (by decide) (by decide) (by decide)⟩

lemma setPair_eq (n : Nat) (data : List Nat) (hd : data.length = 12 * n)
    (i ch : Nat) (hi : i < n) (hch : ch < 3) (v : Int) (hv0 : 0 <= v)
    (hv : v <= 255) :
    setPair ⟨n, data⟩ (i : Int) (ch : Int) v =
      .ok ⟨n, splice data (12 * i + 4 * ch) (expand_byte v)⟩ := by
  unfold setPair
  dsimp only
  rw [if_neg (by omega), if_neg (by omega),
    expand_byte_into_eq data _ _ v (12 * i + 4 * ch) (by push_cast; ring)
      (by push_cast; ring) (by omega)]
  rfl

lemma getPair_read (n : Nat) (d : List Nat) (i ch : Nat) (hi : i < n)
    (hch : ch < 3) :
    getPair ⟨n, d⟩ (i : Int) (ch : Int) =
      compress_byte ((d.take (12 * i + 4 * ch + 4)).drop (12 * i + 4 * ch)) := by
  unfold getPair
  dsimp only
  rw [if_neg (by omega),
    pySlice_eq d _ _ (12 * i + 4 * ch) (12 * i + 4 * ch + 4) (by push_cast; ring)
      (by push_cast; ring)]

lemma getInt_read (n : Nat) (d : List Nat) (j : Nat) (hj : j < n) :
    getInt ⟨n, d⟩ (j : Int) =
      (do
        let c0 ← compress_byte ((d.take (12 * j + 4)).drop (12 * j))
        let c1 ← compress_byte ((d.take (12 * j + 8)).drop (12 * j + 4))
        let c2 ← compress_byte ((d.take (12 * j + 12)).drop (12 * j + 8))
        return (c0, c1, c2)) := by
  unfold getInt
  dsimp only
  rw [if_neg (by omega),
    pySlice_eq d _ _ (12 * j) (12 * j + 4) (by push_cast; ring) (by push_cast; ring),
    pySlice_eq d _ _ (12 * j + 4) (12 * j + 8) (by push_cast; ring) (by push_cast; ring),
    pySlice_eq d _ _ (12 * j + 8) (12 * j + 12) (by push_cast; ring) (by push_cast; ring)]

/-- C9: for every pixel index i, channel ch with ch < 3 and value v in
0..255, after set((i,ch), v): get((i,ch)) returns v, the other two
channels of pixel i are unchanged, and every other pixel is unchanged. -/
theorem c9_paired_set_get (n : Nat) (data : List Nat) (hd : data.length = 12 * n)
    (i ch : Nat) (hi : i < n) (hch : ch < 3) (v : Nat) (hv : v <= 255) :
    ∃ np' : NeoPixel,
      setPair ⟨n, data⟩ (i : Int) (ch : Int) (v : Int) = .ok np' ∧
      getPair np' (i : Int) (ch : Int) = .ok v ∧
      (∀ ch' : Nat, ch' < 3 → ch' ≠ ch →
        getPair np' (i : Int) (ch' : Int) = getPair ⟨n, data⟩ (i : Int) (ch' : Int)) ∧
      (∀ j : Nat, j < n → j ≠ i →
        getInt np' (j : Int) = getInt ⟨n, data⟩ (j : Int)) := by
  have hsp : 12 * i + 4 * ch + (expand_byte (v : Int)).length <= data.length := by
    simp only [expand_byte_length]
    omega
  refine ⟨_, setPair_eq n data hd i ch hi hch v (by positivity) (by omega), ?_, ?_, ?_⟩
  · rw [getPair_read n _ i ch hi hch]
    have hm := take_drop_splice_middle data (expand_byte (v : Int))
      (12 * i + 4 * ch) hsp
    simp only [expand_byte_length] at hm
    rw [hm, compress_expand]
    congr 1
    rw [Int.emod_eq_of_lt (by positivity) (by omega)]
    simp
  · intro ch' hch' hne
    rw [getPair_read n _ i ch' hi hch', getPair_read n data i ch' hi hch']
    have hf := take_drop_splice_frame data (expand_byte (v : Int))
      (12 * i + 4 * ch) (12 * i + 4 * ch') (12 * i + 4 * ch' + 4) hsp
      (by simp only [expand_byte_length]; omega)
    rw [hf]
  · intro j hj hne
    rw [getInt_read n _ j hj, getInt_read n data j hj]
    have hf1 := take_drop_splice_frame data (expand_byte (v : Int))
      (12 * i + 4 * ch) (12 * j) (12 * j + 4) hsp
      (by simp only [expand_byte_length]; omega)
    have hf2 := take_drop_splice_frame data (expand_byte (v : Int))
      (12 * i + 4 * ch) (12 * j + 4) (12 * j + 8) hsp
      (by simp only [expand_byte_length]; omega)
    have hf3 := take_drop_splice_frame data (expand_byte (v : Int))
      (12 * i + 4 * ch) (12 * j + 8) (12 * j + 12) hsp
      (by simp only [expand_byte_length]; omega)
    rw [hf1, hf2, hf3]

/-- Witness for C9 on a 1-pixel buffer, pixel 0, channel 1, value 9. -/
theorem c9_paired_set_get_witness :
    (List.replicate 12 136).length = 12 * 1 ∧
    (∃ np', setPair ⟨1, List.replicate 12 136⟩ ((0 : Nat) : Int) ((1 : Nat) : Int)
        ((9 : Nat) : Int) = .ok np' ∧
      getPair np' ((0 : Nat) : Int) ((1 : Nat) : Int) = .ok 9 ∧
      (∀ ch' : Nat, ch' < 3 → ch' ≠ 1 →
        getPair np' ((0 : Nat) : Int) (ch' : Int) =
          getPair ⟨1, List.replicate 12 136⟩ ((0 : Nat) : Int) (ch' : Int)) ∧
      (∀ j : Nat, j < 1 → j ≠ 0 →
        getInt np' (j : Int) = getInt ⟨1, List.replicate 12 136⟩ (j : Int))) :=
  ⟨by decide, c9_paired_set_get 1 (List.replicate 12 136) (by decide) 0 1
    (by decide) (by decide) 9 (by decide)⟩

lemma take_drop_splice_sub (l m : List Nat) (o a b : Nat)
    (h : o + m.length <= l.length) (ha : o <= a) (hb : b <= o + m.length) :
    ((splice l o m).take b).drop a = (m.take (b - o)).drop (a - o) := by
  apply List.ext_getElem?
  intro j
  rw [List.getElem?_drop, List.getElem?_take, List.getElem?_drop,
    List.getElem?_take, splice_getElem? l m o h]
  by_cases hj : a + j < b
  · rw [if_pos hj, if_neg (by omega), if_pos (by omega), if_pos (by omega)]
    congr 1
    omega
  · rw [if_neg hj, if_neg (by omega)]

lemma setInt_eq (n : Nat) (data : List Nat) (hd : data.length = 12 * n)
    (i : Nat) (hi : i < n) (v0 v1 v2 : Int) :
    setInt ⟨n, data⟩ (i : Int) (v0, v1, v2) =
      .ok ⟨n, splice data (12 * i)
        (expand_byte v0 ++ expand_byte v1 ++ expand_byte v2)⟩ := by
  unfold setInt
  dsimp only
  rw [if_neg (by omega),
    write3_chain data (12 * i) ((i : Int) * 12) ((i : Int) * 12 + 4)
      ((i : Int) * 12 + 8) ((i : Int) * 12 + 12) (by push_cast; ring)
      (by push_cast; ring) (by push_cast; ring) (by push_cast; ring)
      (by omega) v0 v1 v2 _]
  rfl

lemma getInt_after_write (n : Nat) (data : List Nat) (hd : data.length = 12 * n)
    (i : Nat) (hi : i < n) (v0 v1 v2 : Int) :
    getInt ⟨n, splice data (12 * i)
        (expand_byte v0 ++ expand_byte v1 ++ expand_byte v2)⟩ (i : Int) =
      .ok ((v0 % 256).toNat, (v1 % 256).toNat, (v2 % 256).toNat) := by
  have hT : (expand_byte v0 ++ expand_byte v1 ++ expand_byte v2).length = 12 := by
    simp [expand_byte_length]
  have hTr : expand_byte v0 ++ expand_byte v1 ++ expand_byte v2 =
      expand_byte v0 ++ (expand_byte v1 ++ expand_byte v2) := by
    rw [List.append_assoc]
  have hbound : 12 * i + (expand_byte v0 ++ expand_byte v1 ++ expand_byte v2).length
      <= data.length := by
    rw [hT]
    omega
  rw [getInt_read n _ i hi]
  have hs1 := take_drop_splice_sub data _ (12 * i) (12 * i) (12 * i + 4) hbound
    (le_refl _) (by rw [hT]; omega)
  rw [show 12 * i + 4 - 12 * i = 4 by omega, show 12 * i - 12 * i = 0 by omega,
    List.drop_zero] at hs1
  have hs2 := take_drop_splice_sub data _ (12 * i) (12 * i + 4) (12 * i + 8) hbound
    (by omega) (by rw [hT]; omega)
  rw [show 12 * i + 8 - 12 * i = 8 by omega, show 12 * i + 4 - 12 * i = 4 by omega]
    at hs2
  have hs3 := take_drop_splice_sub data _ (12 * i) (12 * i + 8) (12 * i + 12) hbound
    (by omega) (by rw [hT])
  rw [show 12 * i + 12 - 12 * i = 12 by omega, show 12 * i + 8 - 12 * i = 8 by omega]
    at hs3
  rw [hs1, hs2, hs3, hTr]
  rw [take4_of_len4 _ _ (expand_byte_length v0)]
  rw [show ((expand_byte v0 ++ (expand_byte v1 ++ expand_byte v2)).take 8).drop 4 =
      ((expand_byte v0 ++ (expand_byte v1 ++ expand_byte v2)).drop 4).take 4 by
    rw [List.drop_take]]
  rw [drop4_of_len4 _ _ (expand_byte_length v0),
    take4_of_len4 _ _ (expand_byte_length v1)]
  rw [show ((expand_byte v0 ++ (expand_byte v1 ++ expand_byte v2)).take 12).drop 8 =
      ((expand_byte v0 ++ (expand_byte v1 ++ expand_byte v2)).drop 8).take 4 by
    rw [List.drop_take]]
  rw [show (8 : Nat) = 4 + 4 from rfl, ← List.drop_drop,
    drop4_of_len4 _ _ (expand_byte_length v0),
    drop4_of_len4 _ _ (expand_byte_length v1),
    List.take_of_length_le (le_of_eq (expand_byte_length v2))]
  rw [compress_expand, compress_expand, compress_expand]
  rfl

lemma setPair_reject (n : Nat) (data : List Nat) (i ch : Nat) (hi : i < n)
    (hch : ch < 3) (v : Int) (hv : v < 0 ∨ 255 < v) :
    setPair ⟨n, data⟩ (i : Int) (ch : Int) v = .error .valueError := by
  unfold setPair
  dsimp only
  rw [if_neg (by omega), if_pos hv]

/-- C10: the triple-valued set forms (single-pixel tuple assignment and
slice broadcast assignment) perform no range check on the channel
values: for any integers a,b,c the assignment succeeds and a subsequent
get returns the values reduced modulo 256; only the paired
set((pixel, channel), value) form rejects values outside 0..255. -/
theorem c10_no_range_check_tuple_forms (n : Nat) (data : List Nat)
    (hd : data.length = 12 * n) (i : Nat) (hi : i < n) (a b c : Int) :
    (∃ np', setInt ⟨n, data⟩ (i : Int) (a, b, c) = .ok np' ∧
      getInt np' (i : Int) =
        .ok ((a % 256).toNat, (b % 256).toNat, (c % 256).toNat)) ∧
    (∀ start stop : Nat, start <= stop → stop <= n →
      ∃ np', setSlice ⟨n, data⟩ (some (start : Int)) (some (stop : Int)) none
          (.tup (a, b, c)) = .ok np' ∧
        getSlice np' (some (start : Int)) (some (stop : Int)) none =
          .ok (List.replicate (stop - start)
            ((a % 256).toNat, (b % 256).toNat, (c % 256).toNat))) ∧
    (∀ ch : Nat, ch < 3 → ∀ v : Int, v < 0 ∨ 255 < v →
      setPair ⟨n, data⟩ (i : Int) (ch : Int) v = .error .valueError) := by
  refine ⟨⟨_, setInt_eq n data hd i hi a b c,
      getInt_after_write n data hd i hi a b c⟩, ?_, ?_⟩
  · intro start stop h1 h2
    refine ⟨_, setSlice_tup_eq n data hd start stop h1 h2 a b c, ?_⟩
    rw [getSlice_nat_eq, slice_of_written data _ start stop h1 (by omega)
      (by rw [tiles_length]; simp [expand_byte_length]; ring),
      compress_triples_tile]
  · intro ch hch v hv
    exact setPair_reject n data i ch hi hch v hv

/-- Witness for C10 on a 1-pixel buffer with out-of-range channel values
(-1, 300, 5). -/
theorem c10_no_range_check_tuple_forms_witness :
    (List.replicate 12 136).length = 12 * 1 ∧
    ((∃ np', setInt ⟨1, List.replicate 12 136⟩ ((0 : Nat) : Int)
        ((-1 : Int), (300 : Int), (5 : Int)) = .ok np' ∧
      getInt np' ((0 : Nat) : Int) =
        .ok (((-1 : Int) % 256).toNat, ((300 : Int) % 256).toNat,
          ((5 : Int) % 256).toNat)) ∧
    (∀ start stop : Nat, start ≤ stop → stop ≤ 1 →
      ∃ np', setSlice ⟨1, List.replicate 12 136⟩ (some (start : Int))
          (some (stop : Int)) none (.tup ((-1 : Int), (300 : Int), (5 : Int))) =
            .ok np' ∧
        getSlice np' (some (start : Int)) (some (stop : Int)) none =
          .ok (List.replicate (stop - start)
            (((-1 : Int) % 256).toNat, ((300 : Int) % 256).toNat,
              ((5 : Int) % 256).toNat))) ∧
    (∀ ch : Nat, ch < 3 → ∀ v : Int, v < 0 ∨ 255 < v →
      setPair ⟨1, List.replicate 12 136⟩ ((0 : Nat) : Int) (ch : Int) v =
        .error .valueError)) :=
  ⟨by decide, c10_no_range_check_tuple_forms 1 (List.replicate 12 136)
    (by decide) 0 (by decide) (-1) 300 5⟩

lemma sliceIdx_mul12 (n : Nat) (z : Int) :
    ∃ m, sliceIdx (12 * n) (z * 12) = 12 * m := by
  unfold sliceIdx
  by_cases hz : z * 12 < 0
  · rw [if_pos hz]
    refine ⟨((n : Int) + z).toNat, ?_⟩
    have h12 : ((12 * n : Nat) : Int) + z * 12 = 12 * ((n : Int) + z) := by
      push_cast; ring
    rw [h12]
    omega
  · rw [if_neg hz]
    refine ⟨min z.toNat n, ?_⟩
    omega

lemma pySlice_mul12_length (data : List Nat) (n : Nat) (hd : data.length = 12 * n)
    (z w : Int) :
    ∃ m, (pySlice data (z * 12) (w * 12)).length = 12 * m := by
  obtain ⟨ms, hms⟩ := sliceIdx_mul12 n z
  obtain ⟨me, hme⟩ := sliceIdx_mul12 n w
  unfold pySlice
  rw [hd, hms, hme]
  simp only [List.length_drop, List.length_take, hd]
  exact ⟨min me n - ms, by omega⟩

/-- C8 counterexample: on a 1-pixel buffer the slice 0:2 has its stop
bound outside [0, pixel_count], yet get returns the one existing pixel
(not the empty sequence) and set writes it (not a no-op). -/
theorem c8_clamping_counterexample :
    getSlice ⟨1, List.replicate 12 136⟩ (some 0) (some 2) none = .ok [(0, 0, 0)] ∧
    getSlice ⟨1, List.replicate 12 136⟩ (some 0) (some 2) none ≠ .ok [] ∧
    setSlice ⟨1, List.replicate 12 136⟩ (some 0) (some 2) none (.tup (1, 2, 3)) =
      .ok ⟨1, expand_byte 1 ++ expand_byte 2 ++ expand_byte 3⟩ ∧
    setSlice ⟨1, List.replicate 12 136⟩ (some 0) (some 2) none (.tup (1, 2, 3)) ≠
      .ok ⟨1, List.replicate 12 136⟩ :=
  ⟨by decide, by decide, by decide, by decide⟩

/-- C8 amended: out-of-range slice bounds are resolved by Python
sequence-slice semantics on the byte buffer (clamping, not emptying): a
step-1 get never raises and returns one triple per 12 bytes of the
resolved byte range (so it is empty exactly when that range is empty,
e.g. for reversed bounds), and a step-1 broadcast set on a slice whose
resolved byte range is empty changes nothing and raises no error. -/
theorem c8_amended_clamping (n : Nat) (data : List Nat)
    (hd : data.length = 12 * n) (start? stop? : Option Int) (v : Int × Int × Int) :
    (∃ l, getSlice ⟨n, data⟩ start? stop? none = .ok l ∧
      12 * l.length =
        (pySlice data (norm_bound n 0 start? * 12)
          (norm_bound n n stop? * 12)).length) ∧
    ((pySlice data (norm_bound n 0 start? * 12)
        (norm_bound n n stop? * 12)).length = 0 →
      setSlice ⟨n, data⟩ start? stop? none (.tup v) = .ok ⟨n, data⟩) := by
  obtain ⟨m, hm⟩ := pySlice_mul12_length data n hd (norm_bound n 0 start?)
    (norm_bound n n stop?)
  constructor
  · obtain ⟨l, hok, hlen⟩ := compress_triples_total m _ hm
    refine ⟨l, ?_, by omega⟩
    unfold getSlice unpack_slice
    dsimp only
    rw [exc_ok_bind]
    exact hok
  · intro h0
    unfold setSlice unpack_slice
    dsimp only
    rw [exc_ok_bind]
    rw [if_pos (show ((( ⟨n, data⟩ : NeoPixel).data.take
      (sliceIdx (⟨n, data⟩ : NeoPixel).data.length (norm_bound n n stop? * 12))).drop
      (sliceIdx (⟨n, data⟩ : NeoPixel).data.length (norm_bound n 0 start? * 12))).length = 0
      from h0)]
    rfl

/-- Witness for the amended C8 on a 1-pixel buffer with slice 0:5. -/
theorem c8_amended_clamping_witness :
    (List.replicate 12 136).length = 12 * 1 ∧
    ((∃ l, getSlice ⟨1, List.replicate 12 136⟩ (some 0) (some 5) none = .ok l ∧
      12 * l.length =
        (pySlice (List.replicate 12 136) (norm_bound 1 0 (some 0) * 12)
          (norm_bound 1 1 (some 5) * 12)).length) ∧
    ((pySlice (List.replicate 12 136) (norm_bound 1 0 (some 0) * 12)
        (norm_bound 1 1 (some 5) * 12)).length = 0 →
      setSlice ⟨1, List.replicate 12 136⟩ (some 0) (some 5) none
        (.tup (1, 2, 3)) = .ok ⟨1, List.replicate 12 136⟩)) :=
  ⟨by decide, c8_amended_clamping 1 (List.replicate 12 136) (by decide)
    (some 0) (some 5) (1, 2, 3)⟩

/-- C1: for every integer v with 0 ≤ v ≤ 255, compressing the 4-byte
result of expanding v yields v back: `_compress_byte` applied to the
four bytes written by `_expand_byte(v)` equals v. -/
theorem c1_compress_expand_roundtrip (v : Nat) (h : v < 256) :
    compress_byte (expand_byte (v : Int)) = .ok v :=
  compress_expand_nat v h

/-- Witness for C1 at v = 200. -/
theorem c1_compress_expand_roundtrip_witness :
    200 < 256 ∧ compress_byte (expand_byte ((200 : Nat) : Int)) = .ok 200 :=
  ⟨by norm_num, c1_compress_expand_roundtrip 200 (by norm_num)⟩

/-- C2: the claim says rotate(0) and rotate(pixel_count) complete
without error and leave the buffer unchanged.  The code instead raises:
with `count % n == 0` the slice assignment `data[count:] = head`
assigns an empty `head` to the whole buffer, a length mismatch
(ValueError).  Evaluated here at a 2-pixel buffer. -/
theorem c2_rotate_zero_raises :
    rotate (zeroBuf 2) 0 = .error .valueError ∧
    rotate (zeroBuf 2) 2 = .error .valueError :=
  ⟨rfl, rfl⟩

/-- C3: rotation by 1 on a 2-pixel buffer does move pixel i to
position (i + 1) mod 2, but rotation by 0 — included in the claim's
"every integer count" — raises ValueError instead of acting as the
identity permutation. -/
theorem c3_rotate_count_zero_raises :
    rotate ⟨2, pixData⟩ 1 =
      .ok ⟨2, expand_byte 4 ++ expand_byte 5 ++ expand_byte 6 ++
              expand_byte 1 ++ expand_byte 2 ++ expand_byte 3⟩ ∧
    rotate ⟨2, pixData⟩ 0 = .error .valueError :=
  ⟨rfl, rfl⟩

/-- C4: on a 2-pixel buffer, index -1 should behave like index 1, but
every access form that reaches the last 4-byte group computes the byte
slice `data[-4:0]`, which is empty: get(-1) and get((-1,2)) raise
ValueError (tuple unpacking), set(-1,(5,5,5)) and set((-1,2),5) raise
IndexError (write into the empty memoryview), while the corresponding
accesses at index 1 succeed. -/
theorem c4_negative_index_raises :
    getInt (zeroBuf 2) (-1) = .error .valueError ∧
    getInt (zeroBuf 2) 1 = .ok (0, 0, 0) ∧
    getPair (zeroBuf 2) (-1) 2 = .error .valueError ∧
    getPair (zeroBuf 2) 1 2 = .ok 0 ∧
    setInt (zeroBuf 2) (-1) (5, 5, 5) = .error .indexError ∧
    setInt (zeroBuf 2) 1 (5, 5, 5) =
      .ok ⟨2, List.replicate 12 136 ++
              (expand_byte 5 ++ expand_byte 5 ++ expand_byte 5)⟩ ∧
    setPair (zeroBuf 2) (-1) 2 5 = .error .indexError ∧
    setPair (zeroBuf 2) 1 2 5 = .ok ⟨2, List.replicate 20 136 ++ expand_byte 5⟩ :=
  ⟨rfl, rfl, rfl, rfl, rfl, rfl, rfl, rfl⟩

/-- C5: assigning a correctly sized list of 2 triples to a 2-pixel
slice raises IndexError: the loop reads `value[i // 3]` with `i` a byte
offset, so the second pixel looks up `value[4]`. -/
theorem c5_list_assignment_raises :
    setSlice (zeroBuf 2) (some 0) (some 2) none
      (.lst [(1, 1, 1), (2, 2, 2)]) = .error .indexError :=
  rfl

/-- C6: assigning a list of 5 triples to a 2-pixel slice — a length
mismatch the claim says raises ShapeMismatch — raises nothing: the
loop reads elements 0 and 4 of the list and writes them to the two
pixels. -/
theorem c6_no_length_check :
    (setSlice (zeroBuf 2) (some 0) (some 2) none
        (.lst [(1, 1, 1), (2, 2, 2), (3, 3, 3), (4, 4, 4), (5, 5, 5)])).bind
      (fun np => getSlice np none none none) = .ok [(1, 1, 1), (5, 5, 5)] :=
  rfl

end NeoSPI
